import Mathlib

/-!
# github-workflow-watcher: deduplication, truncation and table construction

A shallow embedding of `main.go`.  Go strings are byte sequences, slices are
lists, and a call that ends the process (`log.Fatalf`) or panics at run time
is an `Except.error`.  The collaborators outside the repository (the HTTP
client, the JSON decoder, the time library, the terminal styling library)
are parameters or are represented by the data they are given.
-/

namespace WorkflowWatcher

/-! ## Strings -/

/-- A Go `string`: an immutable sequence of bytes. -/
abbrev GoString := List (Fin 256)

/-- UTF-8 encoding of one code point, as the Go compiler stores the characters
of a string literal. -/
def encodeRune (c : Char) : GoString :=
  let n := c.toNat
  if n < 0x80 then [Fin.ofNat n]
  else if n < 0x800 then [Fin.ofNat (0xC0 + n / 64), Fin.ofNat (0x80 + n % 64)]
  else if n < 0x10000 then
    [Fin.ofNat (0xE0 + n / 4096), Fin.ofNat (0x80 + n / 64 % 64), Fin.ofNat (0x80 + n % 64)]
  else
    [Fin.ofNat (0xF0 + n / 262144), Fin.ofNat (0x80 + n / 4096 % 64),
     Fin.ofNat (0x80 + n / 64 % 64), Fin.ofNat (0x80 + n % 64)]

/-- UTF-8 encoding of a sequence of code points. -/
def utf8Chars : List Char → GoString
  | [] => []
  | c :: cs => encodeRune c ++ utf8Chars cs

/-- The bytes of a string literal. -/
def utf8 (s : String) : GoString := utf8Chars s.data

/-! ## Data model (`main.go`, lines 18-53) -/

structure Repo where
  Name : GoString
  Owner : GoString
deriving DecidableEq

structure Actor where
  Id : GoString
  Login : GoString
  HtmlUrl : GoString
deriving DecidableEq

structure Repository where
  Id : GoString
  Name : GoString
  FullName : GoString
  HtmlUrl : GoString
  Description : GoString
deriving DecidableEq

structure WorkflowRun where
  Id : Nat
  UpdatedAt : GoString
  Name : GoString
  HeadBranch : GoString
  DisplayTitle : GoString
  Status : GoString
  Conclusion : GoString
  Url : GoString
  Actor : Actor
  Repository : Repository
deriving DecidableEq

structure Workflow where
  TotalCount : Int
  WorkflowRuns : List WorkflowRun
deriving DecidableEq

/-- How a call can fail to return: `log.Fatalf` ends the process with the
given message, a run-time panic ends it with a run-time error. -/
inductive Failure where
  | fatal (msg : GoString)
  | panic (msg : GoString)
deriving DecidableEq

deriving instance DecidableEq for Except

/-! ## Deduplication (`main.go`, lines 230-249) -/

/-- The loop of `isWorkflowRunUnique`: `isUnique` starts `true` and the scan
stops with `false` at the first selected run with the same repository name and
branch. -/
def isWorkflowRunUnique : List WorkflowRun → GoString → GoString → Bool
  | [], _, _ => true
  | run :: rest, repoName, branch =>
    if run.Repository.Name = repoName ∧ run.HeadBranch = branch then false
    else isWorkflowRunUnique rest repoName branch

/-- One iteration of the loop of `uniqueWorkflowRuns`. -/
def uniqueStep (filteredWorkflowRuns : List WorkflowRun) (workflowRun : WorkflowRun) :
    List WorkflowRun :=
  if isWorkflowRunUnique filteredWorkflowRuns workflowRun.Repository.Name workflowRun.HeadBranch
  then filteredWorkflowRuns ++ [workflowRun]
  else filteredWorkflowRuns

/-- The function `uniqueWorkflowRuns`: a left-to-right pass that appends each
run to the result unless the result already holds its key. -/
def uniqueWorkflowRuns (workflowRuns : List WorkflowRun) : List WorkflowRun :=
  workflowRuns.foldl uniqueStep []

/-- The (repository name, branch name) pair of a run. -/
def runKey (w : WorkflowRun) : GoString × GoString := (w.Repository.Name, w.HeadBranch)

/-- Specification of deduplication in the words of the contract: the element at
index `i` is kept exactly when no element at an index `j < i` has the same
(repository name, branch name) pair; the kept elements stay in input order. -/
def firstOccurrences (xs : List WorkflowRun) : List WorkflowRun :=
  (xs.enum.filter (fun p =>
    decide (∀ j, j < p.1 → (xs.get? j).map runKey ≠ some (runKey p.2)))).map Prod.snd

/-! ## Truncation (`main.go`, lines 251-257) -/

/-- The function `truncate`: `len` and the slice `str[:total]` count bytes; a
negative `total` is below `len(str)` and makes the slice expression panic. -/
def truncate (str : GoString) (total : Int) : Except Failure GoString :=
  if total ≥ (str.length : Int) then .ok str
  else if total < 0 then .error (.panic (utf8 "slice bounds out of range"))
  else .ok (str.take total.toNat ++ utf8 "...")

/-! ## Status label (`main.go`, lines 201-218) -/

/-- The value a `lipgloss` style produces from a text: the text together with
the foreground colour it is drawn in; `none` is a string returned without any
style applied. -/
structure Styled where
  Foreground : Option GoString
  Text : GoString
deriving DecidableEq

/-- The call `lipgloss.NewStyle().Foreground(lipgloss.Color(c)).Render(text)`. -/
def Render (colour : String) (text : String) : Styled :=
  { Foreground := some (utf8 colour), Text := utf8 text }

/-- The function `renderStatus`, a `switch` over four literals with a default
that returns its argument. -/
def renderStatus (status : GoString) : Styled :=
  if status = utf8 "success" then Render "28" "Success"
  else if status = utf8 "in_progress" then Render "184" "In Progress"
  else if status = utf8 "queued" then Render "184" "Queued"
  else if status = utf8 "failure" then Render "160" "Failed"
  else { Foreground := none, Text := status }

/-! ## Table construction (`main.go`, lines 146-199, 220-228) -/

/-- The function `sameRepoNameAsLastEntry`; indexing outside the slice
panics. -/
def sameRepoNameAsLastEntry (index : Int) (runs : List WorkflowRun) : Except Failure Bool :=
  if index = 0 then .ok false
  else if index - 1 < 0 then .error (.panic (utf8 "index out of range"))
  else
    match runs.get? (index - 1).toNat, runs.get? index.toNat with
    | some last, some current =>
      if last.Repository.Name = current.Repository.Name then .ok true else .ok false
    | _, _ => .error (.panic (utf8 "index out of range"))

/-- The two calls into time libraries: `time.Parse(time.RFC3339, _)`, which
returns a time or an error, and `humanize.Time`, read at one instant. -/
structure TimeLib where
  Time : Type
  Parse : GoString → Except GoString Time
  Humanize : Time → GoString

/-- One data row of the table, the six arguments of `t.Row` in column order:
"Repo", "Branch", "Description", "User", "Triggered At", "Build Status". -/
structure Row where
  Repo : GoString
  Branch : GoString
  Description : GoString
  User : GoString
  TriggeredAt : GoString
  BuildStatus : Styled
deriving DecidableEq

/-- The table handed to `Render`: its header row and its data rows.  Borders
and row colours do not alter the cells. -/
structure Table where
  Headers : List GoString
  Rows : List Row
deriving DecidableEq

/-- The method `t.Row`, appending one data row. -/
def Table.Row (t : Table) (r : Row) : Table := { t with Rows := t.Rows ++ [r] }

/-- Application state. -/
structure model where
  pat : GoString
  WorkflowRuns : List WorkflowRun
  repos : List Repo
  counter : Int
  text : GoString

/-- The loop `for i, w := range filteredWorkflowRuns` of `View`, at index `i`
with the runs still to visit. -/
def viewLoop (tl : TimeLib) (filteredWorkflowRuns : List WorkflowRun) :
    Nat → List WorkflowRun → Table → Except Failure Table
  | _, [], t => .ok t
  | i, w :: rest, t =>
    match tl.Parse w.UpdatedAt with
    | .error err => .error (.fatal (utf8 "Error covertering UpdatedAt time: " ++ err))
    | .ok dateTime =>
      let status := if w.Conclusion = utf8 "" then w.Status else w.Conclusion
      match truncate w.Repository.Name 20 with
      | .error e => .error e
      | .ok repoName =>
        match sameRepoNameAsLastEntry (i : Int) filteredWorkflowRuns with
        | .error e => .error e
        | .ok same =>
          let repoName := if same then utf8 "" else repoName
          match truncate w.DisplayTitle 28 with
          | .error e => .error e
          | .ok displayTitle =>
            match truncate w.Actor.Login 10 with
            | .error e => .error e
            | .ok login =>
              viewLoop tl filteredWorkflowRuns (i + 1) rest
                (t.Row
                  { Repo := repoName
                    Branch := w.HeadBranch
                    Description := displayTitle
                    User := login
                    TriggeredAt := tl.Humanize dateTime
                    BuildStatus := renderStatus status })

/-- The method `View`, up to the table it renders: the header row, then one row
per deduplicated run. -/
def model.View (tl : TimeLib) (m : model) : Except Failure Table :=
  let t : Table :=
    { Headers := [utf8 "Repo", utf8 "Branch", utf8 "Description", utf8 "User",
                  utf8 "Triggered At", utf8 "Build Status"]
      Rows := [] }
  let filteredWorkflowRuns := uniqueWorkflowRuns m.WorkflowRuns
  viewLoop tl filteredWorkflowRuns 0 filteredWorkflowRuns t

/-! ## Fetching (`main.go`, lines 64-73, 89-105) -/

/-- An HTTP request as `getWorkflow` builds it. -/
structure Request where
  Method : GoString
  URL : GoString
  Header : List (GoString × List GoString)
deriving DecidableEq

/-- The network and decoding collaborators of `getWorkflow`:
`http.NewRequest` (its error, if any, for a method and a URL), `client.Do`
(the response body or an error) and `json.NewDecoder(body).Decode`, which
writes into the value it is given and returns an optional error. -/
structure Net where
  NewRequest : GoString → GoString → Option GoString
  Do : Request → Except GoString GoString
  Decode : GoString → Workflow → Workflow × Option GoString

/-- The request `getWorkflow` sends for a URL and a token. -/
def apiRequest (url pat : GoString) : Request :=
  { Method := utf8 "GET"
    URL := url
    Header := [(utf8 "Authorization", [utf8 "token " ++ pat]),
               (utf8 "User-Agent", [utf8 "Your mum"]),
               (utf8 "Accept", [utf8 "application/json"])] }

/-- The function `getWorkflow`.  `data` is the value behind the pointer; the
result is that value after the call, with the requests handed to `client.Do`
so far.  The error returned by `Decode` is not read. -/
def getWorkflow (net : Net) (url pat : GoString) (data : Workflow) (sent : List Request) :
    Except Failure (Workflow × List Request) :=
  match net.NewRequest (utf8 "GET") url with
  | some err => .error (.fatal (utf8 "Error initializing request: " ++ err))
  | none =>
    let req := apiRequest url pat
    match net.Do req with
    | .error err => .error (.fatal (utf8 "Error sending request to the Github API " ++ err))
    | .ok body => .ok ((net.Decode body data).1, sent ++ [req])

/-- The URL `getAllWorkflowRuns` formats for a repository. -/
def runsURL (repo : Repo) : GoString :=
  utf8 "https://api.github.com/repos/" ++ repo.Owner ++ utf8 "/" ++ repo.Name ++
    utf8 "/actions/runs"

/-- The loop `for _, repo := range repos` of `getAllWorkflowRuns`. -/
def getAllWorkflowRunsLoop (net : Net) (pat : GoString) :
    List Repo → List WorkflowRun → List Request →
      Except Failure (List WorkflowRun × List Request)
  | [], workflowRuns, sent => .ok (workflowRuns, sent)
  | repo :: rest, workflowRuns, sent =>
    let url := runsURL repo
    match getWorkflow net url pat { TotalCount := 0, WorkflowRuns := [] } sent with
    | .error e => .error e
    | .ok (workflow, sent) =>
      getAllWorkflowRunsLoop net pat rest (workflowRuns ++ workflow.WorkflowRuns) sent

/-- The function `getAllWorkflowRuns`, started with the requests sent so
far. -/
def getAllWorkflowRuns (net : Net) (repos : List Repo) (pat : GoString)
    (sent : List Request) : Except Failure (List WorkflowRun × List Request) :=
  getAllWorkflowRunsLoop net pat repos [] sent

/-! ## Auxiliary definitions used in statements and examples -/

/-- The value `truncate` returns for a non-negative limit. -/
def cut (s : GoString) (n : Nat) : GoString :=
  if s.length ≤ n then s else s.take n ++ utf8 "..."

/-- Whether the run before position `i` has the repository name of `w`. -/
def prevSame (runs : List WorkflowRun) (i : Nat) (w : WorkflowRun) : Bool :=
  match i with
  | 0 => false
  | j + 1 =>
    match runs.get? j with
    | some last => decide (last.Repository.Name = w.Repository.Name)
    | none => false

/-- The row `View` adds for the run `w` at position `i`, given its parsed time. -/
def rowFor (tl : TimeLib) (runs : List WorkflowRun) (i : Nat) (w : WorkflowRun)
    (dateTime : tl.Time) : Row :=
  { Repo := if prevSame runs i w then utf8 "" else cut w.Repository.Name 20
    Branch := w.HeadBranch
    Description := cut w.DisplayTitle 28
    User := cut w.Actor.Login 10
    TriggeredAt := tl.Humanize dateTime
    BuildStatus := renderStatus (if w.Conclusion = utf8 "" then w.Status else w.Conclusion) }

/-- A run with the given repository name, branch, status and conclusion. -/
def exRun (repo branch status conclusion : String) : WorkflowRun :=
  { Id := 1
    UpdatedAt := utf8 "2024-05-01T10:00:00Z"
    Name := utf8 "CI"
    HeadBranch := utf8 branch
    DisplayTitle := utf8 "Update dependencies"
    Status := utf8 status
    Conclusion := utf8 conclusion
    Url := utf8 ""
    Actor := { Id := utf8 "", Login := utf8 "octocat", HtmlUrl := utf8 "" }
    Repository :=
      { Id := utf8 "", Name := utf8 repo, FullName := utf8 "", HtmlUrl := utf8 "",
        Description := utf8 "" } }

/-- A time library that accepts every non-empty timestamp. -/
def exTimeLib : TimeLib :=
  { Time := Unit
    Parse := fun s => if s = utf8 "" then .error (utf8 "cannot parse") else .ok ()
    Humanize := fun _ => utf8 "now" }

/-- Application state holding the given runs. -/
def exModel (runs : List WorkflowRun) : model :=
  { pat := utf8 "token", WorkflowRuns := runs, repos := [], counter := 1,
    text := utf8 "sup dawg" }

def exRepoApi : Repo := { Name := utf8 "api", Owner := utf8 "acme" }

def exRepoWeb : Repo := { Name := utf8 "web", Owner := utf8 "acme" }

/-- A network in which the two example repositories answer with one run each
and every other URL answers with a body that is not JSON. -/
def exNet : Net :=
  { NewRequest := fun _ _ => none
    Do := fun req =>
      if req.URL = runsURL exRepoApi then .ok (utf8 "api-runs")
      else if req.URL = runsURL exRepoWeb then .ok (utf8 "web-runs")
      else .ok (utf8 "<html>502 Bad Gateway</html>")
    Decode := fun body data =>
      if body = utf8 "api-runs" then
        ({ TotalCount := 1, WorkflowRuns := [exRun "api" "main" "completed" "success"] }, none)
      else if body = utf8 "web-runs" then
        ({ TotalCount := 1, WorkflowRuns := [exRun "web" "main" "completed" "success"] }, none)
      else (data, some (utf8 "invalid character < looking for beginning of value")) }

/-- The run lists the example network serves. -/
def exFetch (r : Repo) : List WorkflowRun :=
  if r = exRepoApi then [exRun "api" "main" "completed" "success"]
  else [exRun "web" "main" "completed" "success"]

/-! ## Deduplication: lemmas -/

theorem isWorkflowRunUnique_iff (acc : List WorkflowRun) (n b : GoString) :
    isWorkflowRunUnique acc n b = true ↔ (n, b) ∉ acc.map runKey := by
  induction acc with
  | nil => simp [isWorkflowRunUnique]
  | cons a acc ih =>
    unfold isWorkflowRunUnique
    by_cases h : a.Repository.Name = n ∧ a.HeadBranch = b
    · simp only [h, and_self, if_true]
      obtain ⟨h1, h2⟩ := h
      simp [runKey, h1, h2]
    · rw [if_neg h, ih]
      have hk : (n, b) ≠ runKey a := by
        intro hk
        apply h
        simp only [runKey, Prod.mk.injEq] at hk
        exact ⟨hk.1.symm, hk.2.symm⟩
      simp [hk]

theorem uniqueStep_eq (acc : List WorkflowRun) (x : WorkflowRun) :
    uniqueStep acc x = if runKey x ∈ acc.map runKey then acc else acc ++ [x] := by
  unfold uniqueStep
  by_cases h : runKey x ∈ acc.map runKey
  · have h2 : ¬ (isWorkflowRunUnique acc x.Repository.Name x.HeadBranch = true) := by
      rw [isWorkflowRunUnique_iff]; exact fun hn => hn h
    rw [if_neg h2, if_pos h]
  · have h2 : isWorkflowRunUnique acc x.Repository.Name x.HeadBranch = true := by
      rw [isWorkflowRunUnique_iff]; exact h
    rw [if_pos h2, if_neg h]

theorem uniqueWorkflowRuns_nil : uniqueWorkflowRuns [] = [] := rfl

theorem uniqueWorkflowRuns_snoc (xs : List WorkflowRun) (x : WorkflowRun) :
    uniqueWorkflowRuns (xs ++ [x]) =
      if runKey x ∈ (uniqueWorkflowRuns xs).map runKey then uniqueWorkflowRuns xs
      else uniqueWorkflowRuns xs ++ [x] := by
  unfold uniqueWorkflowRuns
  rw [List.foldl_append]
  simp only [List.foldl_cons, List.foldl_nil]
  exact uniqueStep_eq _ _

theorem mem_keys_unique (xs : List WorkflowRun) (k : GoString × GoString) :
    k ∈ (uniqueWorkflowRuns xs).map runKey ↔ k ∈ xs.map runKey := by
  induction xs using List.reverseRecOn generalizing k with
  | nil => simp [uniqueWorkflowRuns_nil]
  | append_singleton xs x ih =>
    rw [uniqueWorkflowRuns_snoc]
    by_cases h : runKey x ∈ (uniqueWorkflowRuns xs).map runKey
    · rw [if_pos h, ih]
      simp only [List.map_append, List.mem_append, List.map_cons, List.map_nil,
        List.mem_singleton]
      constructor
      · exact fun hk => Or.inl hk
      · rintro (hk | hk)
        · exact hk
        · rw [hk]; exact (ih (runKey x)).mp h
    · rw [if_neg h]
      simp only [List.map_append, List.mem_append, ih]

theorem nodup_keys_unique (xs : List WorkflowRun) :
    ((uniqueWorkflowRuns xs).map runKey).Nodup := by
  induction xs using List.reverseRecOn with
  | nil => simp [uniqueWorkflowRuns_nil]
  | append_singleton xs x ih =>
    rw [uniqueWorkflowRuns_snoc]
    by_cases h : runKey x ∈ (uniqueWorkflowRuns xs).map runKey
    · rw [if_pos h]; exact ih
    · rw [if_neg h, List.map_append, List.nodup_append]
      refine ⟨ih, by simp, ?_⟩
      intro a ha hb
      simp only [List.map_cons, List.map_nil, List.mem_singleton] at hb
      exact h (hb ▸ ha)

theorem unique_of_nodup_keys (xs : List WorkflowRun) (h : (xs.map runKey).Nodup) :
    uniqueWorkflowRuns xs = xs := by
  induction xs using List.reverseRecOn with
  | nil => rfl
  | append_singleton xs x ih =>
    rw [List.map_append, List.nodup_append] at h
    obtain ⟨h1, _, h3⟩ := h
    rw [uniqueWorkflowRuns_snoc, ih h1]
    have hx : runKey x ∉ xs.map runKey := fun hm => h3 hm (by simp)
    rw [if_neg hx]

theorem firstOccurrences_snoc (xs : List WorkflowRun) (x : WorkflowRun) :
    firstOccurrences (xs ++ [x]) =
      if runKey x ∈ xs.map runKey then firstOccurrences xs else firstOccurrences xs ++ [x] := by
  have hpre : (xs.enum.filter (fun p =>
      decide (∀ j, j < p.1 → ((xs ++ [x]).get? j).map runKey ≠ some (runKey p.2)))) =
      (xs.enum.filter (fun p =>
      decide (∀ j, j < p.1 → (xs.get? j).map runKey ≠ some (runKey p.2)))) := by
    apply List.filter_congr
    intro p hp
    have hlt : p.1 < xs.length := by
      have := List.fst_lt_of_mem_enum hp
      exact this
    have : ∀ j, j < p.1 → (xs ++ [x]).get? j = xs.get? j := by
      intro j hj
      simp only [List.get?_eq_getElem?]
      exact List.getElem?_append_left (by omega)
    apply decide_eq_decide.mpr
    constructor
    · intro h j hj; rw [← this j hj]; exact h j hj
    · intro h j hj; rw [this j hj]; exact h j hj
  have hlast : (∀ j, j < xs.length → ((xs ++ [x]).get? j).map runKey ≠ some (runKey x)) ↔
      runKey x ∉ xs.map runKey := by
    constructor
    · intro h hm
      obtain ⟨y, hy, hk⟩ := List.mem_map.mp hm
      obtain ⟨j, hj, hget⟩ := List.getElem_of_mem hy
      apply h j hj
      simp only [List.get?_eq_getElem?]
      rw [List.getElem?_append_left hj, List.getElem?_eq_getElem hj, hget]
      simp [hk]
    · intro h j hj hEq
      apply h
      simp only [List.get?_eq_getElem?] at hEq
      rw [List.getElem?_append_left hj, List.getElem?_eq_getElem hj] at hEq
      simp only [Option.map_some', Option.some.injEq] at hEq
      exact List.mem_map.mpr ⟨xs[j], List.getElem_mem _, hEq⟩
  unfold firstOccurrences
  rw [List.enum_append, List.filter_append, List.map_append, hpre]
  simp only [List.enumFrom_cons, List.enumFrom_nil, List.filter_cons, List.filter_nil]
  by_cases hm : runKey x ∈ xs.map runKey
  · have : ¬ (∀ j, j < xs.length → ((xs ++ [x]).get? j).map runKey ≠ some (runKey x)) :=
      fun h => (hlast.mp h) hm
    simp only [decide_eq_true_eq, this, if_false, List.map_nil, List.append_nil]
    rw [if_pos hm]
  · have : (∀ j, j < xs.length → ((xs ++ [x]).get? j).map runKey ≠ some (runKey x)) :=
      hlast.mpr hm
    simp only [decide_eq_true_eq]
    rw [if_pos this, if_neg hm]
    rfl

theorem unique_eq_firstOccurrences (xs : List WorkflowRun) :
    uniqueWorkflowRuns xs = firstOccurrences xs := by
  induction xs using List.reverseRecOn with
  | nil => rfl
  | append_singleton xs x ih =>
    rw [uniqueWorkflowRuns_snoc, firstOccurrences_snoc, ← ih]
    by_cases h : runKey x ∈ xs.map runKey
    · rw [if_pos h, if_pos ((mem_keys_unique xs _).mpr h)]
    · rw [if_neg h, if_neg (fun hm => h ((mem_keys_unique xs _).mp hm))]

theorem find_unique (xs : List WorkflowRun) (k : GoString × GoString) :
    (uniqueWorkflowRuns xs).find? (fun w => decide (runKey w = k)) =
      xs.find? (fun w => decide (runKey w = k)) := by
  induction xs using List.reverseRecOn with
  | nil => rfl
  | append_singleton xs x ih =>
    rw [uniqueWorkflowRuns_snoc, List.find?_append, ← ih]
    by_cases h : runKey x ∈ (uniqueWorkflowRuns xs).map runKey
    · rw [if_pos h]
      by_cases hk : runKey x = k
      · obtain ⟨y, hy, hyk⟩ := List.mem_map.mp h
        have : ((uniqueWorkflowRuns xs).find? (fun w => decide (runKey w = k))).isSome := by
          rw [List.find?_isSome]
          exact ⟨y, hy, by simp [hyk, hk]⟩
        obtain ⟨z, hz⟩ := Option.isSome_iff_exists.mp this
        rw [hz]; rfl
      · simp [List.find?_cons, hk]
    · rw [if_neg h, List.find?_append]

theorem unique_all_same_key (x : WorkflowRun) (rest : List WorkflowRun)
    (h : ∀ y ∈ rest, runKey y = runKey x) : uniqueWorkflowRuns (x :: rest) = [x] := by
  induction rest using List.reverseRecOn with
  | nil => rfl
  | append_singleton rest y ih =>
    have h1 : ∀ z ∈ rest, runKey z = runKey x := fun z hz => h z (by simp [hz])
    have h2 : runKey y = runKey x := h y (by simp)
    rw [← List.cons_append, uniqueWorkflowRuns_snoc, ih h1]
    simp [h2]

/-! ## Deduplication: the contract -/

/-- C1: the list returned by `uniqueWorkflowRuns` never holds, at two different
positions, two runs with the same repository name and the same branch. -/
theorem uniqueWorkflowRuns_distinct_keys (xs : List WorkflowRun) (i j : Nat)
    (a b : WorkflowRun)
    (ha : (uniqueWorkflowRuns xs).get? i = some a)
    (hb : (uniqueWorkflowRuns xs).get? j = some b)
    (hij : i ≠ j) :
    ¬ (a.Repository.Name = b.Repository.Name ∧ a.HeadBranch = b.HeadBranch) := by
  rintro ⟨h1, h2⟩
  have hnd := nodup_keys_unique xs
  simp only [List.get?_eq_getElem?] at ha hb
  obtain ⟨hi, hai⟩ := List.getElem?_eq_some.mp ha
  obtain ⟨hj, hbj⟩ := List.getElem?_eq_some.mp hb
  have hi2 : i < ((uniqueWorkflowRuns xs).map runKey).length := by simpa using hi
  have hj2 : j < ((uniqueWorkflowRuns xs).map runKey).length := by simpa using hj
  have hkey : ((uniqueWorkflowRuns xs).map runKey)[i] = ((uniqueWorkflowRuns xs).map runKey)[j] := by
    simp only [List.getElem_map, hai, hbj, runKey, h1, h2]
  exact hij ((List.Nodup.getElem_inj_iff hnd).mp hkey)

/-- Witness for C1: of two runs of one repository on one branch followed by a run of
another repository, the result holds the first and the third, whose keys differ. -/
theorem uniqueWorkflowRuns_distinct_keys_witness :
    ¬ ((exRun "api" "main" "completed" "success").Repository.Name =
          (exRun "web" "main" "completed" "success").Repository.Name ∧
        (exRun "api" "main" "completed" "success").HeadBranch =
          (exRun "web" "main" "completed" "success").HeadBranch) :=
  uniqueWorkflowRuns_distinct_keys
    [exRun "api" "main" "completed" "success", exRun "api" "main" "completed" "failure",
     exRun "web" "main" "completed" "success"]
    0 1 _ _ (by decide) (by decide) (by decide)

/-- C2: `uniqueWorkflowRuns` returns exactly the runs that are the first occurrence
of their (repository name, branch) pair, in input order: it equals
`firstOccurrences`, it is a sublist of the input, looking up any pair gives the
same run in the output as in the input, and a list whose runs all share the pair of
its first run reduces to that first run. -/
theorem uniqueWorkflowRuns_first_occurrences (xs : List WorkflowRun) :
    uniqueWorkflowRuns xs = firstOccurrences xs ∧
    (uniqueWorkflowRuns xs).Sublist xs ∧
    (∀ k : GoString × GoString,
      (uniqueWorkflowRuns xs).find? (fun w => decide (runKey w = k)) =
        xs.find? (fun w => decide (runKey w = k))) ∧
    (∀ x rest, xs = x :: rest → (∀ y ∈ rest, runKey y = runKey x) →
      uniqueWorkflowRuns xs = [x]) := by
  refine ⟨unique_eq_firstOccurrences xs, ?_, find_unique xs, ?_⟩
  · rw [unique_eq_firstOccurrences]
    unfold firstOccurrences
    have h1 : (xs.enum.filter (fun p =>
        decide (∀ j, j < p.1 → (xs.get? j).map runKey ≠ some (runKey p.2)))).Sublist xs.enum :=
      List.filter_sublist _
    have h2 := h1.map Prod.snd
    rwa [List.enum_map_snd] at h2
  · intro x rest hx h
    subst hx
    exact unique_all_same_key x rest h

/-- Witness for C2: two runs of one repository on branch "main", the first successful
and the second failed, reduce to the first. -/
theorem uniqueWorkflowRuns_first_occurrences_witness :
    uniqueWorkflowRuns
        [exRun "api" "main" "completed" "success", exRun "api" "main" "completed" "failure"] =
      [exRun "api" "main" "completed" "success"] :=
  (uniqueWorkflowRuns_first_occurrences
    [exRun "api" "main" "completed" "success", exRun "api" "main" "completed" "failure"]).2.2.2
    _ _ rfl (by decide)

/-- C3: deduplicating a deduplicated list changes nothing. -/
theorem uniqueWorkflowRuns_idempotent (xs : List WorkflowRun) :
    uniqueWorkflowRuns (uniqueWorkflowRuns xs) = uniqueWorkflowRuns xs :=
  unique_of_nodup_keys _ (nodup_keys_unique xs)

/-! ## Truncation -/

theorem utf8_dots_length : (utf8 "...").length = 3 := by decide

theorem truncate_nat (s : GoString) (n : Nat) : truncate s (n : Int) = .ok (cut s n) := by
  unfold truncate cut
  by_cases h : s.length ≤ n
  · have h2 : (n : Int) ≥ (s.length : Int) := by omega
    rw [if_pos h2, if_pos h]
  · have h2 : ¬ ((n : Int) ≥ (s.length : Int)) := by omega
    have h3 : ¬ ((n : Int) < 0) := by omega
    rw [if_neg h2, if_neg h3, if_neg h, Int.toNat_ofNat]

/-- C4, as stated, fails: the string "é" is one character long, yet with limit 1
`truncate` does not return it unchanged but cuts it after its first byte; and with a
negative limit `truncate` returns no string at all. -/
theorem truncate_length_in_characters_fails :
    "é".length ≤ 1 ∧
    truncate (utf8 "é") 1 ≠ .ok (utf8 "é") ∧
    truncate (utf8 "é") 1 = .ok ([195] ++ utf8 "...") ∧
    truncate (utf8 "abc") (-1) = .error (.panic (utf8 "slice bounds out of range")) := by
  decide

/-- C4, amended: lengths are counted in bytes.  `truncate s n` returns `s`
unchanged when the byte length of `s` is at most `n`; for `0 ≤ n` below the byte
length it returns the first `n` bytes of `s` followed by "...", and the part
before the ellipsis has exactly `n` bytes; for a negative `n` it panics. -/
theorem truncate_bytes (s : GoString) (n : Int) :
    ((s.length : Int) ≤ n → truncate s n = .ok s) ∧
    (0 ≤ n → n < (s.length : Int) →
      truncate s n = .ok (s.take n.toNat ++ utf8 "...") ∧
      ((s.take n.toNat).length : Int) = n) ∧
    (n < 0 → truncate s n = .error (.panic (utf8 "slice bounds out of range"))) := by
  refine ⟨?_, ?_, ?_⟩
  · intro h
    unfold truncate
    rw [if_pos h]
  · intro h0 h
    have h2 : ¬ (n ≥ (s.length : Int)) := by omega
    have h3 : ¬ (n < 0) := by omega
    refine ⟨?_, ?_⟩
    · unfold truncate
      rw [if_neg h2, if_neg h3]
    · rw [List.length_take]
      omega
  · intro h
    have h2 : ¬ (n ≥ (s.length : Int)) := by omega
    unfold truncate
    rw [if_neg h2, if_pos h]

/-- Witness for C4 amended: "hello!" has six bytes and is cut to "hello..." at limit 5. -/
theorem truncate_bytes_witness :
    truncate (utf8 "hello!") 5 = .ok ((utf8 "hello!").take (5 : Int).toNat ++ utf8 "...") ∧
      (((utf8 "hello!").take (5 : Int).toNat).length : Int) = 5 :=
  (truncate_bytes (utf8 "hello!") 5).2.1 (by decide) (by decide)

/-! ## Table construction: lemmas -/

theorem utf8_empty : utf8 "" = [] := rfl

theorem cut_eq_nil (s : GoString) (n : Nat) : cut s n = [] ↔ s = [] := by
  unfold cut
  by_cases h : s.length ≤ n
  · rw [if_pos h]
  · rw [if_neg h]
    constructor
    · intro h2
      have h3 := congrArg List.length h2
      rw [List.length_append, utf8_dots_length] at h3
      simp at h3
    · intro h2
      subst h2
      simp at h

theorem sameRepoNameAsLastEntry_at (runs : List WorkflowRun) (i : Nat) (w : WorkflowRun)
    (hw : runs.get? i = some w) :
    sameRepoNameAsLastEntry (i : Int) runs = .ok (prevSame runs i w) := by
  cases i with
  | zero => simp [sameRepoNameAsLastEntry, prevSame]
  | succ j =>
    have hj : j < runs.length := by
      have := List.get?_eq_some.mp hw
      obtain ⟨h, _⟩ := this
      omega
    have h0 : ¬ (((j + 1 : Nat) : Int) = 0) := by omega
    have h1 : ¬ (((j + 1 : Nat) : Int) - 1 < 0) := by omega
    have h2 : (((j + 1 : Nat) : Int) - 1).toNat = j := by omega
    have h3 : (((j + 1 : Nat) : Int)).toNat = j + 1 := by omega
    unfold sameRepoNameAsLastEntry
    rw [if_neg h0, if_neg h1, h2, h3, hw]
    obtain ⟨last, hl⟩ : ∃ last, runs.get? j = some last :=
      ⟨runs.get ⟨j, hj⟩, List.get?_eq_get hj⟩
    rw [hl]
    simp only [prevSame, hl]
    by_cases hn : last.Repository.Name = w.Repository.Name
    · rw [if_pos hn, decide_eq_true hn]
    · rw [if_neg hn, decide_eq_false hn]

theorem viewLoop_cons_ok (tl : TimeLib) (runs : List WorkflowRun) (i : Nat) (w : WorkflowRun)
    (rest : List WorkflowRun) (t : Table) (dateTime : tl.Time)
    (hw : runs.get? i = some w) (hp : tl.Parse w.UpdatedAt = .ok dateTime) :
    viewLoop tl runs i (w :: rest) t =
      viewLoop tl runs (i + 1) rest (t.Row (rowFor tl runs i w dateTime)) := by
  have h20 : truncate w.Repository.Name 20 = .ok (cut w.Repository.Name 20) :=
    truncate_nat _ 20
  have h28 : truncate w.DisplayTitle 28 = .ok (cut w.DisplayTitle 28) := truncate_nat _ 28
  have h10 : truncate w.Actor.Login 10 = .ok (cut w.Actor.Login 10) := truncate_nat _ 10
  rw [viewLoop]
  simp only [hp, h20, h28, h10, sameRepoNameAsLastEntry_at runs i w hw]
  rfl

theorem viewLoop_cons_error (tl : TimeLib) (runs : List WorkflowRun) (i : Nat)
    (w : WorkflowRun) (rest : List WorkflowRun) (t : Table) (err : GoString)
    (hp : tl.Parse w.UpdatedAt = .error err) :
    viewLoop tl runs i (w :: rest) t =
      .error (.fatal (utf8 "Error covertering UpdatedAt time: " ++ err)) := by
  rw [viewLoop]
  simp only [hp]

theorem viewLoop_rows (tl : TimeLib) (runs : List WorkflowRun) :
    ∀ (rest : List WorkflowRun) (i : Nat) (t t2 : Table),
      (∀ k, rest.get? k = runs.get? (i + k)) →
      viewLoop tl runs i rest t = .ok t2 →
      t2.Headers = t.Headers ∧
      ∃ rows, t2.Rows = t.Rows ++ rows ∧ rows.length = rest.length ∧
        ∀ k w, rest.get? k = some w →
          ∃ dateTime, tl.Parse w.UpdatedAt = .ok dateTime ∧
            rows.get? k = some (rowFor tl runs (i + k) w dateTime) := by
  intro rest
  induction rest with
  | nil =>
    intro i t t2 _ h
    simp only [viewLoop, Except.ok.injEq] at h
    subst h
    exact ⟨rfl, [], by simp, rfl, by simp⟩
  | cons w rest ih =>
    intro i t t2 hidx h
    have hw : runs.get? i = some w := by
      have := hidx 0
      simpa using this.symm
    cases hp : tl.Parse w.UpdatedAt with
    | error err =>
      rw [viewLoop_cons_error tl runs i w rest t err hp] at h
      cases h
    | ok dateTime =>
      rw [viewLoop_cons_ok tl runs i w rest t dateTime hw hp] at h
      have hidx2 : ∀ k, rest.get? k = runs.get? (i + 1 + k) := by
        intro k
        have := hidx (k + 1)
        simp only [List.get?_cons_succ] at this
        rw [this]
        congr 1
        omega
      obtain ⟨hh, rows, hrows, hlen, hall⟩ := ih (i + 1) _ t2 hidx2 h
      refine ⟨hh, rowFor tl runs i w dateTime :: rows, ?_, ?_, ?_⟩
      · rw [hrows]
        simp [Table.Row]
      · simp [hlen]
      · intro k w2 hk
        cases k with
        | zero =>
          simp only [List.get?_cons_zero, Option.some.injEq] at hk
          subst hk
          exact ⟨dateTime, hp, by simp⟩
        | succ k =>
          simp only [List.get?_cons_succ] at hk
          obtain ⟨dt, hdt, hrow⟩ := hall k w2 hk
          refine ⟨dt, hdt, ?_⟩
          simp only [List.get?_cons_succ]
          rw [hrow]
          congr 2
          omega

theorem viewLoop_total (tl : TimeLib) (runs : List WorkflowRun) :
    ∀ (rest : List WorkflowRun) (i : Nat) (t : Table),
      (∀ k, rest.get? k = runs.get? (i + k)) →
      (∀ w ∈ rest, ∃ dateTime, tl.Parse w.UpdatedAt = .ok dateTime) →
      ∃ t2, viewLoop tl runs i rest t = .ok t2 := by
  intro rest
  induction rest with
  | nil =>
    intro i t _ _
    exact ⟨t, by simp [viewLoop]⟩
  | cons w rest ih =>
    intro i t hidx hparse
    have hw : runs.get? i = some w := by
      have := hidx 0
      simpa using this.symm
    obtain ⟨dateTime, hp⟩ := hparse w (by simp)
    rw [viewLoop_cons_ok tl runs i w rest t dateTime hw hp]
    apply ih
    · intro k
      have := hidx (k + 1)
      simp only [List.get?_cons_succ] at this
      rw [this]
      congr 1
      omega
    · intro w2 hw2
      exact hparse w2 (by simp [hw2])

/-- Every row of a table returned by `View` is the row built from the run at its
position in the deduplicated list. -/
theorem view_rows (tl : TimeLib) (m : model) (t : Table) (h : m.View tl = .ok t) :
    t.Rows.length = (uniqueWorkflowRuns m.WorkflowRuns).length ∧
    ∀ i w, (uniqueWorkflowRuns m.WorkflowRuns).get? i = some w →
      ∃ dateTime, tl.Parse w.UpdatedAt = .ok dateTime ∧
        t.Rows.get? i = some (rowFor tl (uniqueWorkflowRuns m.WorkflowRuns) i w dateTime) := by
  unfold model.View at h
  obtain ⟨_, rows, hrows, hlen, hall⟩ :=
    viewLoop_rows tl _ _ 0 _ t (by intro k; simp) h
  simp only [List.nil_append] at hrows
  rw [hrows]
  refine ⟨hlen, ?_⟩
  intro i w hw
  obtain ⟨dt, hdt, hrow⟩ := hall i w hw
  exact ⟨dt, hdt, by simpa using hrow⟩

theorem view_total (tl : TimeLib) (m : model)
    (hparse : ∀ w ∈ uniqueWorkflowRuns m.WorkflowRuns,
      ∃ dateTime, tl.Parse w.UpdatedAt = .ok dateTime) :
    ∃ t, m.View tl = .ok t := by
  unfold model.View
  exact viewLoop_total tl _ _ 0 _ (by intro k; simp) hparse

theorem prevSame_iff (runs : List WorkflowRun) (i : Nat) (w : WorkflowRun) :
    prevSame runs i w = true ↔
      (0 < i ∧ ∃ last, runs.get? (i - 1) = some last ∧
        last.Repository.Name = w.Repository.Name) := by
  cases i with
  | zero => simp [prevSame]
  | succ j =>
    simp only [prevSame, Nat.add_sub_cancel, Nat.succ_pos, true_and]
    cases hl : runs.get? j with
    | none => simp
    | some last => simp

theorem rowFor_repo_eq_nil (tl : TimeLib) (runs : List WorkflowRun) (i : Nat)
    (w : WorkflowRun) (dateTime : tl.Time) :
    (rowFor tl runs i w dateTime).Repo = utf8 "" ↔
      (w.Repository.Name = utf8 "" ∨ prevSame runs i w = true) := by
  unfold rowFor
  simp only
  by_cases h : prevSame runs i w = true
  · rw [if_pos h]
    simp [h]
  · rw [if_neg h, utf8_empty, cut_eq_nil]
    simp [h]

/-! ## Table construction: the contract -/

/-- C5, as stated, fails: for a single run whose repository name is empty, the
repository cell of row 0 is the empty string although row 0 has no predecessor. -/
theorem view_repo_cell_empty_in_first_row :
    ∃ t row, (exModel [exRun "" "main" "completed" "success"]).View exTimeLib = .ok t ∧
      t.Rows.get? 0 = some row ∧
      ¬ (row.Repo = utf8 "" ↔
          (0 < 0 ∧ ∃ last,
            (uniqueWorkflowRuns [exRun "" "main" "completed" "success"]).get? (0 - 1) =
              some last ∧
            last.Repository.Name =
              (exRun "" "main" "completed" "success").Repository.Name)) := by
  refine ⟨_, _, rfl, rfl, ?_⟩
  intro h
  have h2 := h.mp (by decide)
  exact absurd h2.1 (by decide)

/-- C5, amended: in the table built by `View`, every deduplicated run has a row, and
the repository cell of row `i` is the empty string if and only if the repository
name of run `i` is itself empty, or `i > 0` and run `i-1` has the repository name
of run `i`. -/
theorem view_repo_cell_empty_iff (tl : TimeLib) (m : model) (t : Table) (i : Nat)
    (w : WorkflowRun) (h : m.View tl = .ok t)
    (hw : (uniqueWorkflowRuns m.WorkflowRuns).get? i = some w) :
    ∃ row, t.Rows.get? i = some row ∧
      (row.Repo = utf8 "" ↔
        (w.Repository.Name = utf8 "" ∨
          (0 < i ∧ ∃ last, (uniqueWorkflowRuns m.WorkflowRuns).get? (i - 1) = some last ∧
            last.Repository.Name = w.Repository.Name))) := by
  obtain ⟨dt, _, hrow⟩ := (view_rows tl m t h).2 i w hw
  refine ⟨_, hrow, ?_⟩
  rw [rowFor_repo_eq_nil, prevSame_iff]

/-- Witness for C5 amended: two branches of one repository; the second row has an
empty repository cell. -/
theorem view_repo_cell_empty_iff_witness :
    ∃ t, (exModel [exRun "api" "main" "completed" "success",
            exRun "api" "dev" "completed" "failure"]).View exTimeLib = .ok t ∧
      ∃ row, t.Rows.get? 1 = some row ∧
        (row.Repo = utf8 "" ↔
          ((exRun "api" "dev" "completed" "failure").Repository.Name = utf8 "" ∨
            (0 < 1 ∧ ∃ last,
              (uniqueWorkflowRuns (exModel
                [exRun "api" "main" "completed" "success",
                 exRun "api" "dev" "completed" "failure"]).WorkflowRuns).get? (1 - 1) =
                  some last ∧
              last.Repository.Name =
                (exRun "api" "dev" "completed" "failure").Repository.Name))) :=
  ⟨_, rfl, view_repo_cell_empty_iff exTimeLib
    (exModel [exRun "api" "main" "completed" "success", exRun "api" "dev" "completed" "failure"])
    _ 1 (exRun "api" "dev" "completed" "failure") rfl (by decide)⟩

/-- C6, as stated, fails: the label `renderStatus` gives "queued" is "Queued", not
"In Progress". -/
theorem renderStatus_queued_not_in_progress :
    (renderStatus (utf8 "queued")).Text ≠ utf8 "In Progress" ∧
    renderStatus (utf8 "queued") = Render "184" "Queued" := by
  decide

/-- C6, amended: a run whose effective status is "queued" is labelled "Queued", drawn
in the colour of "In Progress": `renderStatus` of "queued" has the text "Queued" and
the foreground of `renderStatus` of "in_progress", and in `View` the status cell of a
run with an empty Conclusion and Status "queued" has the text "Queued". -/
theorem view_queued_label (tl : TimeLib) (m : model) (t : Table) (i : Nat)
    (w : WorkflowRun) (h : m.View tl = .ok t)
    (hw : (uniqueWorkflowRuns m.WorkflowRuns).get? i = some w)
    (hc : w.Conclusion = utf8 "") (hs : w.Status = utf8 "queued") :
    (renderStatus (utf8 "queued")).Text = utf8 "Queued" ∧
    (renderStatus (utf8 "queued")).Foreground =
      (renderStatus (utf8 "in_progress")).Foreground ∧
    ∃ row, t.Rows.get? i = some row ∧ row.BuildStatus.Text = utf8 "Queued" := by
  obtain ⟨dt, _, hrow⟩ := (view_rows tl m t h).2 i w hw
  refine ⟨by decide, by decide, _, hrow, ?_⟩
  simp only [rowFor, hc, hs, if_true]
  decide

/-- Witness for C6 amended: one queued run without a conclusion. -/
theorem view_queued_label_witness :
    ∃ t, (exModel [exRun "api" "main" "queued" ""]).View exTimeLib = .ok t ∧
      (renderStatus (utf8 "queued")).Text = utf8 "Queued" ∧
      (renderStatus (utf8 "queued")).Foreground =
        (renderStatus (utf8 "in_progress")).Foreground ∧
      ∃ row, t.Rows.get? 0 = some row ∧ row.BuildStatus.Text = utf8 "Queued" :=
  ⟨_, rfl, view_queued_label exTimeLib (exModel [exRun "api" "main" "queued" ""]) _ 0
    (exRun "api" "main" "queued" "") rfl (by decide) (by decide) (by decide)⟩

/-- C7: in `View` the status cell of a run is `renderStatus` of its Conclusion when
that is non-empty and of its Status otherwise; `renderStatus` gives "success" the
text "Success", "in_progress" the text "In Progress", "failure" the text "Failed",
and returns every string other than "success", "in_progress", "queued" and "failure"
unchanged and unstyled. -/
theorem view_status_cell (tl : TimeLib) (m : model) (t : Table) (i : Nat)
    (w : WorkflowRun) (h : m.View tl = .ok t)
    (hw : (uniqueWorkflowRuns m.WorkflowRuns).get? i = some w) :
    (∃ row, t.Rows.get? i = some row ∧
      row.BuildStatus =
        renderStatus (if w.Conclusion ≠ utf8 "" then w.Conclusion else w.Status)) ∧
    (renderStatus (utf8 "success")).Text = utf8 "Success" ∧
    (renderStatus (utf8 "in_progress")).Text = utf8 "In Progress" ∧
    (renderStatus (utf8 "failure")).Text = utf8 "Failed" ∧
    (∀ s : GoString, s ≠ utf8 "success" → s ≠ utf8 "in_progress" → s ≠ utf8 "queued" →
      s ≠ utf8 "failure" → renderStatus s = { Foreground := none, Text := s }) := by
  obtain ⟨dt, _, hrow⟩ := (view_rows tl m t h).2 i w hw
  refine ⟨⟨_, hrow, ?_⟩, by decide, by decide, by decide, ?_⟩
  · simp only [rowFor]
    by_cases hc : w.Conclusion = utf8 ""
    · rw [if_pos hc, if_neg (not_not.mpr hc)]
    · rw [if_neg hc, if_pos hc]
  · intro s h1 h2 h3 h4
    unfold renderStatus
    rw [if_neg h1, if_neg h2, if_neg h3, if_neg h4]

/-- Witness for C7: a run that ended in failure has the status cell of "failure". -/
theorem view_status_cell_witness :
    ∃ t, (exModel [exRun "api" "main" "completed" "failure"]).View exTimeLib = .ok t ∧
      ((∃ row, t.Rows.get? 0 = some row ∧
        row.BuildStatus =
          renderStatus
            (if (exRun "api" "main" "completed" "failure").Conclusion ≠ utf8 "" then
              (exRun "api" "main" "completed" "failure").Conclusion
             else (exRun "api" "main" "completed" "failure").Status)) ∧
      (renderStatus (utf8 "success")).Text = utf8 "Success" ∧
      (renderStatus (utf8 "in_progress")).Text = utf8 "In Progress" ∧
      (renderStatus (utf8 "failure")).Text = utf8 "Failed" ∧
      (∀ s : GoString, s ≠ utf8 "success" → s ≠ utf8 "in_progress" → s ≠ utf8 "queued" →
        s ≠ utf8 "failure" → renderStatus s = { Foreground := none, Text := s })) :=
  ⟨_, rfl, view_status_cell exTimeLib (exModel [exRun "api" "main" "completed" "failure"]) _ 0
    (exRun "api" "main" "completed" "failure") rfl (by decide)⟩

/-- C10: when the runs have pairwise distinct, non-empty repository names and
timestamps that parse, `uniqueWorkflowRuns` returns the list unchanged, `View`
returns a table, the table has exactly one data row per run, and no row has an empty
repository cell. -/
theorem view_distinct_repositories (tl : TimeLib) (m : model)
    (hd : m.WorkflowRuns.Pairwise (fun a b => a.Repository.Name ≠ b.Repository.Name))
    (hne : ∀ w ∈ m.WorkflowRuns, w.Repository.Name ≠ utf8 "")
    (hp : ∀ w ∈ m.WorkflowRuns, ∃ dateTime, tl.Parse w.UpdatedAt = .ok dateTime) :
    uniqueWorkflowRuns m.WorkflowRuns = m.WorkflowRuns ∧
    ∃ t, m.View tl = .ok t ∧ t.Rows.length = m.WorkflowRuns.length ∧
      ∀ row ∈ t.Rows, row.Repo ≠ utf8 "" := by
  have hkeys : (m.WorkflowRuns.map runKey).Nodup := by
    rw [List.Nodup, List.pairwise_map]
    refine hd.imp ?_
    intro a b hab hk
    apply hab
    simp only [runKey, Prod.mk.injEq] at hk
    exact hk.1
  have hU : uniqueWorkflowRuns m.WorkflowRuns = m.WorkflowRuns :=
    unique_of_nodup_keys _ hkeys
  refine ⟨hU, ?_⟩
  obtain ⟨t, ht⟩ := view_total tl m (by rw [hU]; exact hp)
  obtain ⟨hlen, hrows⟩ := view_rows tl m t ht
  rw [hU] at hlen hrows
  refine ⟨t, ht, hlen, ?_⟩
  intro row hrow hempty
  obtain ⟨i, hi, hget⟩ := List.getElem_of_mem hrow
  have hi2 : i < m.WorkflowRuns.length := by omega
  have hwi : m.WorkflowRuns.get? i = some (m.WorkflowRuns.get ⟨i, hi2⟩) :=
    List.get?_eq_get hi2
  obtain ⟨dt, _, hr⟩ := hrows i _ hwi
  have hrow2 : t.Rows.get? i = some row := by
    rw [List.get?_eq_getElem?, List.getElem?_eq_getElem hi, hget]
  rw [hrow2, Option.some.injEq] at hr
  rw [hr, rowFor_repo_eq_nil, prevSame_iff] at hempty
  rcases hempty with h1 | ⟨hpos, last, hlast, hsame⟩
  · exact hne _ (List.get_mem _ _ _) h1
  · rw [List.get?_eq_getElem?] at hlast
    obtain ⟨hj, hlj⟩ := List.getElem?_eq_some.mp hlast
    have := List.pairwise_iff_getElem.mp hd (i - 1) i hj hi2 (by omega)
    apply this
    rw [hlj, hsame]
    rfl

/-- Witness for C10: two repositories, each with one run on branch "main". -/
theorem view_distinct_repositories_witness :
    uniqueWorkflowRuns
        (exModel [exRun "api" "main" "completed" "success",
                  exRun "web" "main" "completed" "success"]).WorkflowRuns =
      (exModel [exRun "api" "main" "completed" "success",
                exRun "web" "main" "completed" "success"]).WorkflowRuns ∧
    ∃ t, (exModel [exRun "api" "main" "completed" "success",
                   exRun "web" "main" "completed" "success"]).View exTimeLib = .ok t ∧
      t.Rows.length =
        (exModel [exRun "api" "main" "completed" "success",
                  exRun "web" "main" "completed" "success"]).WorkflowRuns.length ∧
      ∀ row ∈ t.Rows, row.Repo ≠ utf8 "" :=
  view_distinct_repositories exTimeLib
    (exModel [exRun "api" "main" "completed" "success", exRun "web" "main" "completed" "success"])
    (by decide) (by decide)
    (by
      intro w hw
      refine ⟨(), ?_⟩
      simp only [exModel, List.mem_cons, List.mem_singleton, List.not_mem_nil, or_false] at hw
      rcases hw with h | h <;> subst h <;> rfl)

/-! ## Fetching -/

theorem getWorkflow_ok (net : Net) (url pat : GoString) (data : Workflow)
    (sent : List Request) (body : GoString)
    (h1 : net.NewRequest (utf8 "GET") url = none)
    (h2 : net.Do (apiRequest url pat) = .ok body) :
    getWorkflow net url pat data sent =
      .ok ((net.Decode body data).1, sent ++ [apiRequest url pat]) := by
  unfold getWorkflow
  simp only [h1, h2]

/-- A transport failure ends the process. -/
theorem getWorkflow_transport_failure (net : Net) (url pat : GoString) (data : Workflow)
    (sent : List Request) (err : GoString)
    (h1 : net.NewRequest (utf8 "GET") url = none)
    (h2 : net.Do (apiRequest url pat) = .error err) :
    getWorkflow net url pat data sent =
      .error (.fatal (utf8 "Error sending request to the Github API " ++ err)) := by
  unfold getWorkflow
  simp only [h1, h2]

theorem getAllWorkflowRunsLoop_ok (net : Net) (pat : GoString)
    (fetch : Repo → List WorkflowRun) :
    ∀ (repos : List Repo) (runs : List WorkflowRun) (sent : List Request),
      (∀ r ∈ repos, net.NewRequest (utf8 "GET") (runsURL r) = none ∧
        ∃ body, net.Do (apiRequest (runsURL r) pat) = .ok body ∧
          (net.Decode body { TotalCount := 0, WorkflowRuns := [] }).1.WorkflowRuns = fetch r) →
      getAllWorkflowRunsLoop net pat repos runs sent =
        .ok (runs ++ (repos.map fetch).flatten,
             sent ++ repos.map (fun r => apiRequest (runsURL r) pat)) := by
  intro repos
  induction repos with
  | nil =>
    intro runs sent _
    simp [getAllWorkflowRunsLoop]
  | cons r rest ih =>
    intro runs sent h
    obtain ⟨h1, body, h2, h3⟩ := h r (by simp)
    rw [getAllWorkflowRunsLoop]
    simp only [getWorkflow_ok net _ pat _ sent body h1 h2]
    rw [ih _ _ (fun r2 hr2 => h r2 (by simp [hr2])), h3]
    simp

/-- C8: when every configured repository is fetched without failure and `fetch r` is
the run list decoded from the response for `r`, `getAllWorkflowRuns` sends exactly one
request per repository, in configuration order, and returns the concatenation of the
run lists in that order; for an empty repository list it sends nothing and returns
the empty list. -/
theorem getAllWorkflowRuns_concat (net : Net) (repos : List Repo) (pat : GoString)
    (fetch : Repo → List WorkflowRun)
    (h : ∀ r ∈ repos, net.NewRequest (utf8 "GET") (runsURL r) = none ∧
      ∃ body, net.Do (apiRequest (runsURL r) pat) = .ok body ∧
        (net.Decode body { TotalCount := 0, WorkflowRuns := [] }).1.WorkflowRuns = fetch r) :
    getAllWorkflowRuns net repos pat [] =
      .ok ((repos.map fetch).flatten, repos.map (fun r => apiRequest (runsURL r) pat)) ∧
    getAllWorkflowRuns net [] pat [] = .ok ([], []) := by
  refine ⟨?_, rfl⟩
  unfold getAllWorkflowRuns
  rw [getAllWorkflowRunsLoop_ok net pat fetch repos [] [] h]
  simp

/-- Witness for C8: the two example repositories, one run each. -/
theorem getAllWorkflowRuns_concat_witness :
    getAllWorkflowRuns exNet [exRepoApi, exRepoWeb] (utf8 "token") [] =
      .ok (([exRepoApi, exRepoWeb].map exFetch).flatten,
           [exRepoApi, exRepoWeb].map (fun r => apiRequest (runsURL r) (utf8 "token"))) ∧
    getAllWorkflowRuns exNet [] (utf8 "token") [] = .ok ([], []) :=
  getAllWorkflowRuns_concat exNet [exRepoApi, exRepoWeb] (utf8 "token") exFetch
    (by
      intro r hr
      simp only [List.mem_cons, List.mem_singleton, List.not_mem_nil, or_false] at hr
      rcases hr with h | h <;> subst h
      · exact ⟨rfl, utf8 "api-runs", by decide, by decide⟩
      · exact ⟨rfl, utf8 "web-runs", by decide, by decide⟩)

/-- C9, on the code: when the request is built and sent without error and the decoder
reports an error, `getWorkflow` returns normally, with whatever the decoder left in
the value it was given. -/
theorem getWorkflow_returns_after_decode_error (net : Net) (url pat : GoString)
    (data w : Workflow) (sent : List Request) (body err : GoString)
    (h1 : net.NewRequest (utf8 "GET") url = none)
    (h2 : net.Do (apiRequest url pat) = .ok body)
    (h3 : net.Decode body data = (w, some err)) :
    getWorkflow net url pat data sent = .ok (w, sent ++ [apiRequest url pat]) := by
  rw [getWorkflow_ok net url pat data sent body h1 h2, h3]

/-- Witness for C9: a gateway error page instead of JSON leaves the empty `Workflow`
in place and `getWorkflow` returns. -/
theorem getWorkflow_returns_after_decode_error_witness :
    getWorkflow exNet (utf8 "https://api.github.com/repos/acme/gone/actions/runs")
        (utf8 "token") { TotalCount := 0, WorkflowRuns := [] } [] =
      .ok ({ TotalCount := 0, WorkflowRuns := [] },
           [] ++ [apiRequest (utf8 "https://api.github.com/repos/acme/gone/actions/runs")
              (utf8 "token")]) :=
  getWorkflow_returns_after_decode_error exNet
    (utf8 "https://api.github.com/repos/acme/gone/actions/runs") (utf8 "token")
    { TotalCount := 0, WorkflowRuns := [] } { TotalCount := 0, WorkflowRuns := [] } []
    (utf8 "<html>502 Bad Gateway</html>")
    (utf8 "invalid character < looking for beginning of value")
    rfl (by decide) (by decide)

end WorkflowWatcher
